import Mathlib

/-!
Shallow embedding of `src/sdk/pynni/nni/compression/torch/builtin_quantizers.py`.

Tensors are modelled as lists of rationals (`List ℚ`), element-wise torch
operations as `List.map`, and tensor-wide reductions (`torch.min`, `torch.max`,
`.abs().max()`) as folds.  `torch.round` rounds half to even (IEEE default
rounding), which we model exactly with `roundHalfToEven`.  A division by zero in
the source produces a non-finite float (NaN); in the rational model the affected
value is represented by `Option.none` and a raised Python exception by
`Except.error`.
-/

/-! ## Definitions -/

/-- Rounding of a rational to the nearest integer, ties to even: the semantics
of `torch.round` on floating-point tensors.  A tie happens exactly when
`2 * x = 2 * ⌊x⌋ + 1`; away from ties the result is `⌊x + 1/2⌋`. -/
def roundHalfToEven (x : ℚ) : ℤ :=
  if 2 * x = ((2 * ⌊x⌋ + 1 : ℤ) : ℚ) then
    if ⌊x⌋ % 2 = 0 then ⌊x⌋ else ⌊x⌋ + 1
  else ⌊x + 1/2⌋

/-- `torch.clamp(x, lo, hi)`: the source always calls it with `lo ≤ hi`. -/
def clamp (x lo hi : ℚ) : ℚ :=
  min (max x lo) hi

/-- Largest element of a list of rationals (`torch.max(t)`).  The source never
reduces an empty tensor (torch raises there); the `[]` case returns a junk
value `0` and is outside every theorem below.  Same for `listMin`. -/
def listMax : List ℚ → ℚ
  | [] => 0
  | x :: xs => xs.foldl max x

/-- Smallest element of a list of rationals (`torch.min(t)`); `0` on `[]`. -/
def listMin : List ℚ → ℚ
  | [] => 0
  | x :: xs => xs.foldl min x

/-- Largest absolute value of a list of rationals (`t.abs().max()`). -/
def listAbsMax (l : List ℚ) : ℚ :=
  listMax (l.map (fun x => |x|))

/-- Source `update_quantization_param(bits, rmin, rmax)`: clamp the range to
contain `0`, take `scale = (rmax - rmin) / (2^bits - 1)`, and nudge the initial
zero point to an integer inside `[0, 2^bits - 1]`.  When the clamped range is
degenerate the source divides by a zero `scale`, which makes the zero point a
non-finite float (NaN); that non-finite zero point is modelled as `none`. -/
def update_quantization_param (bits : ℕ) (rmin rmax : ℚ) : ℚ × Option ℚ :=
  let rmin2 := min rmin 0
  let rmax2 := max rmax 0
  let qmin : ℚ := 0
  let qmax : ℚ := ((2 ^ bits - 1 : ℤ) : ℚ)
  let scale := (rmax2 - rmin2) / (qmax - qmin)
  if scale = 0 then (scale, none)
  else
    let initial_zero_point := qmin - rmin2 / scale
    let nudged_zero_point : ℚ :=
      if initial_zero_point < qmin then qmin
      else if initial_zero_point > qmax then qmax
      else ((roundHalfToEven initial_zero_point : ℤ) : ℚ)
    (scale, some nudged_zero_point)

/-- Source `update_ema(biased_ema, value, decay, step)`: one exponential
moving-average update followed by bias correction. -/
def update_ema (biased_ema value decay : ℚ) (step : ℕ) : ℚ × ℚ :=
  let biased_ema2 := biased_ema * decay + (1 - decay) * value
  let unbiased_ema := biased_ema2 / (1 - decay ^ step)
  (biased_ema2, unbiased_ema)

/-- The three quantization types named by `quant_types` keys. -/
inductive QuantType where
  | weight
  | input
  | output
deriving DecidableEq

/-- The value under the `quant_bits` configuration key: either a single int or
a string-keyed mapping (modelled by its lookup function; `none` = key absent
from the dict, as returned by `dict.get`). -/
inductive QuantBits where
  | int (n : ℤ)
  | dict (f : QuantType → Option ℤ)

/-- Per-layer configuration entries read by the QAT quantizer.  `quant_bits` is
`none` when the key is missing from the config dict; `quant_start_step`
defaults to `0` via `config.get`. -/
structure QuantConfig where
  quant_bits : Option QuantBits
  quant_start_step : ℕ

/-- Source `get_bits_length(config, quant_type)`.  A missing `quant_bits` key
raises `KeyError` in the source; here it surfaces as `none`, and the caller
turns it into the failure. -/
def get_bits_length (config : QuantConfig) (quant_type : QuantType) : Option ℤ :=
  match config.quant_bits with
  | none => none
  | some (QuantBits.int n) => some n
  | some (QuantBits.dict f) => f quant_type

/-- Per-layer persistent buffers registered on the module (`op`) by the QAT
quantizer: `scale`, `zero_point` and the four EMA trackers plus the decay. -/
structure QATOp where
  scale : ℚ
  zero_point : ℚ
  ema_decay : ℚ
  tracked_min_biased : ℚ
  tracked_min : ℚ
  tracked_max_biased : ℚ
  tracked_max : ℚ
deriving DecidableEq

/-- The fatal call-time failures of the QAT hooks: `KeyError` / `TypeError`
for a missing bits configuration, the `assert weight_bits >= 1` failure, and a
non-finite zero point from the degenerate-range division by zero. -/
inductive QuantFailure where
  | missing_quant_bits
  | bits_length_below_one
  | nonfinite_zero_point
deriving DecidableEq

namespace QAT_Quantizer

/-- Source `QAT_Quantizer._quantize(bits, op, real_val)` applied to one tensor
element: shift by the zero point, scale, clamp to `[0, 2^bits - 1]`, round. -/
def _quantize (bits : ℕ) (op : QATOp) (real_val : ℚ) : ℚ :=
  let transformed_val := op.zero_point + real_val / op.scale
  let qmin : ℚ := 0
  let qmax : ℚ := ((2 ^ bits - 1 : ℤ) : ℚ)
  let clamped_val := clamp transformed_val qmin qmax
  ((roundHalfToEven clamped_val : ℤ) : ℚ)

/-- Modelled from the spec: the codec reference formula
`quantize(bits, scale, zero_point, real_val) = clamp(round(zero_point + real_val/scale), 0, 2^bits - 1)`,
which applies the rounding before the clamping (the source applies the
clamping before the rounding); used only to compare against `_quantize`. -/
def quantize_spec_formula (bits : ℕ) (op : QATOp) (real_val : ℚ) : ℚ :=
  clamp ((roundHalfToEven (op.zero_point + real_val / op.scale) : ℤ) : ℚ)
    0 ((2 ^ bits - 1 : ℤ) : ℚ)

/-- Source `QAT_Quantizer._dequantize(op, quantized_val)` applied to one tensor
element. -/
def _dequantize (op : QATOp) (quantized_val : ℚ) : ℚ :=
  op.scale * (quantized_val - op.zero_point)

/-- Source `QAT_Quantizer.quantize_weight(weight, config, op)`: read the
configured weight bits (fatal failure when missing or `< 1`), pass the weight
through while `quant_start_step > steps`, otherwise recompute
`(scale, zero_point)` from the exact weight range and fake-quantize.  The
degenerate range (NaN zero point in the source) surfaces as a failure value. -/
def quantize_weight (config : QuantConfig) (steps : ℕ) (op : QATOp)
    (weight : List ℚ) : Except QuantFailure (QATOp × List ℚ) :=
  match get_bits_length config QuantType.weight with
  | none => Except.error QuantFailure.missing_quant_bits
  | some weight_bits =>
    if weight_bits < 1 then Except.error QuantFailure.bits_length_below_one
    else if config.quant_start_step > steps then Except.ok (op, weight)
    else
      let rmin := listMin weight
      let rmax := listMax weight
      match update_quantization_param weight_bits.toNat rmin rmax with
      | (_, none) => Except.error QuantFailure.nonfinite_zero_point
      | (s, some zp) =>
        let op2 := { op with scale := s, zero_point := zp }
        Except.ok (op2, weight.map (fun x => _dequantize op2 (_quantize weight_bits.toNat op2 x)))

/-- Source `QAT_Quantizer.quantize_output(output, config, op)`: like
`quantize_weight` but the range comes from the bias-corrected EMA of the batch
extrema, and the EMA buffers are persisted on `op`. -/
def quantize_output (config : QuantConfig) (steps : ℕ) (op : QATOp)
    (output : List ℚ) : Except QuantFailure (QATOp × List ℚ) :=
  match get_bits_length config QuantType.output with
  | none => Except.error QuantFailure.missing_quant_bits
  | some output_bits =>
    if output_bits < 1 then Except.error QuantFailure.bits_length_below_one
    else if config.quant_start_step > steps then Except.ok (op, output)
    else
      let current_min := listMin output
      let current_max := listMax output
      let emin := update_ema op.tracked_min_biased current_min op.ema_decay steps
      let emax := update_ema op.tracked_max_biased current_max op.ema_decay steps
      match update_quantization_param output_bits.toNat emin.2 emax.2 with
      | (_, none) => Except.error QuantFailure.nonfinite_zero_point
      | (s, some zp) =>
        let op2 := { op with
          tracked_min_biased := emin.1, tracked_min := emin.2,
          tracked_max_biased := emax.1, tracked_max := emax.2,
          scale := s, zero_point := zp }
        Except.ok (op2, output.map (fun x => _dequantize op2 (_quantize output_bits.toNat op2 x)))

/-- Source `QAT_Quantizer.step()`: the shared step counter (initialised to `1`
in the constructor) is incremented once per training iteration. -/
def step (steps : ℕ) : ℕ :=
  steps + 1

end QAT_Quantizer

/-- Truncation toward zero of a rational: the semantics of casting a float
tensor to an integer dtype (`Tensor.type(torch.int8)` drops the fractional
part, it does not round to nearest). -/
def truncTowardZero (q : ℚ) : ℤ :=
  if 0 ≤ q then ⌊q⌋ else ⌈q⌉

/-- Wrap-around of an integer into the `int8` domain `[-128, 127]`. -/
def int8cast (n : ℤ) : ℤ :=
  (n + 128) % 256 - 128

namespace NaiveQuantizer

/-- Source `NaiveQuantizer.quantize_weight(weight, config, op_name)`.  The
argument `layer_scale` is the persisted `self.layer_scale.get(op_name, 0)`;
the returned first component is the new persisted value.  The element pipeline
mirrors `weight.div(scale).type(torch.int8).type(orig_type).mul(scale)`. -/
def quantize_weight (layer_scale : ℚ) (weight : List ℚ) : ℚ × List ℚ :=
  let new_scale := listAbsMax weight / 127
  let scale := max layer_scale new_scale
  let divided := weight.map (fun x => x / scale)
  let casted := divided.map (fun x => ((int8cast (truncTowardZero x) : ℤ) : ℚ))
  (scale, casted.map (fun x => x * scale))

/-- Modelled from the spec: the same pipeline with the cast replaced by
round-to-nearest, as the spec sentence claims — the output is
`round(weight / scale)` mapped to int8 and multiplied back by `scale`; used
only to compare against `quantize_weight`. -/
def quantize_weight_spec_round (layer_scale : ℚ) (weight : List ℚ) : ℚ × List ℚ :=
  let new_scale := listAbsMax weight / 127
  let scale := max layer_scale new_scale
  (scale, weight.map (fun x => ((int8cast (roundHalfToEven (x / scale)) : ℤ) : ℚ) * scale))

end NaiveQuantizer

namespace DoReFaQuantizer

/-- Source `DoReFaQuantizer.quantize(input_ri, q_bits)`: uniform quantization
of a `[0, 1]` value to `2^q_bits - 1` levels. -/
def quantize (input_ri : List ℚ) (q_bits : ℕ) : List ℚ :=
  let scale : ℚ := 2 ^ q_bits - 1
  input_ri.map (fun x => ((roundHalfToEven (x * scale) : ℤ) : ℚ) / scale)

/-- Source `DoReFaQuantizer.quantize_weight(weight, config)`.  `torch.tanh` is
transcendental, so it is modelled as an explicit parameter `th : ℚ → ℚ`; the
theorems about this definition assume only the facts about `tanh` they need
(it vanishes exactly at `0`).  The pipeline after `th` mirrors the source:
normalize by `2 * max |t|`, shift by `1/2`, quantize, rescale to `[-1, 1]`. -/
def quantize_weight (th : ℚ → ℚ) (q_bits : ℕ) (weight : List ℚ) : List ℚ :=
  let out1 := weight.map th
  let out2 := out1.map (fun x => x / (2 * listAbsMax out1) + 1/2)
  let out3 := quantize out2 q_bits
  out3.map (fun x => 2 * x - 1)

end DoReFaQuantizer

/-! ## Lemmas about the rounding primitive -/

theorem roundHalfToEven_le (x : ℚ) : (roundHalfToEven x : ℚ) ≤ x + 1/2 := by
  have h1 : (⌊x + 1/2⌋ : ℚ) ≤ x + 1/2 := Int.floor_le (x + 1/2)
  unfold roundHalfToEven
  split_ifs with ht he
  · push_cast at ht ⊢; linarith
  · push_cast at ht ⊢; linarith
  · exact h1

theorem le_roundHalfToEven (x : ℚ) : x - 1/2 ≤ (roundHalfToEven x : ℚ) := by
  have h2 : x + 1/2 < ⌊x + 1/2⌋ + 1 := Int.lt_floor_add_one (x + 1/2)
  unfold roundHalfToEven
  split_ifs with ht he
  · push_cast at ht ⊢; linarith
  · push_cast at ht ⊢; linarith
  · linarith

theorem abs_roundHalfToEven_sub (x : ℚ) : |(roundHalfToEven x : ℚ) - x| ≤ 1/2 := by
  have h1 := roundHalfToEven_le x
  have h2 := le_roundHalfToEven x
  rw [abs_le]
  constructor <;> linarith

theorem roundHalfToEven_intCast (n : ℤ) : roundHalfToEven (n : ℚ) = n := by
  unfold roundHalfToEven
  rw [Int.floor_intCast]
  have ht : ¬(2 * (n : ℚ) = ((2 * n + 1 : ℤ) : ℚ)) := by
    push_cast
    intro h
    have : (2 * n : ℤ) = 2 * n + 1 := by exact_mod_cast h
    omega
  rw [if_neg ht]
  rw [add_comm, Int.floor_add_int]
  norm_num

theorem roundHalfToEven_nonneg (x : ℚ) (h : 0 ≤ x) : 0 ≤ roundHalfToEven x := by
  have h2 := le_roundHalfToEven x
  have h3 : (-1 : ℚ) < (roundHalfToEven x : ℚ) := by linarith
  have h4 : (-1 : ℤ) < roundHalfToEven x := by exact_mod_cast h3
  omega

theorem roundHalfToEven_le_int (x : ℚ) (q : ℤ) (h : x ≤ (q : ℚ)) :
    roundHalfToEven x ≤ q := by
  have h1 := roundHalfToEven_le x
  have h3 : (roundHalfToEven x : ℚ) < ((q + 1 : ℤ) : ℚ) := by push_cast; linarith
  have h4 : roundHalfToEven x < q + 1 := by exact_mod_cast h3
  omega

theorem int_le_roundHalfToEven (x : ℚ) (q : ℤ) (h : (q : ℚ) ≤ x) :
    q ≤ roundHalfToEven x := by
  have h1 := le_roundHalfToEven x
  have h3 : ((q - 1 : ℤ) : ℚ) < (roundHalfToEven x : ℚ) := by push_cast; linarith
  have h4 : q - 1 < roundHalfToEven x := by exact_mod_cast h3
  omega

/-- Rounding commutes with clamping to an integer interval `[0, q]`: the basis
for the equivalence between clamp-then-round (source) and round-then-clamp
(spec formula). -/
theorem roundHalfToEven_clamp_comm (q : ℤ) (hq : 0 ≤ q) (x : ℚ) :
    ((roundHalfToEven (clamp x 0 (q : ℚ)) : ℤ) : ℚ) =
      clamp ((roundHalfToEven x : ℤ) : ℚ) 0 (q : ℚ) := by
  have hq0 : (0 : ℚ) ≤ (q : ℚ) := by exact_mod_cast hq
  rcases lt_or_le x 0 with hx | hx
  · have hr : roundHalfToEven x ≤ 0 := roundHalfToEven_le_int x 0 hx.le
    have hc : clamp x 0 (q : ℚ) = 0 := by
      unfold clamp
      rw [max_eq_right hx.le, min_eq_left hq0]
    rw [hc]
    have h0 : roundHalfToEven ((0 : ℤ) : ℚ) = 0 := roundHalfToEven_intCast 0
    have hrc : (roundHalfToEven x : ℚ) ≤ 0 := by exact_mod_cast hr
    unfold clamp
    rw [max_eq_right hrc, min_eq_left hq0]
    simpa using h0
  · rcases le_or_lt x (q : ℚ) with hxq | hxq
    · have hc : clamp x 0 (q : ℚ) = x := by
        unfold clamp
        rw [max_eq_left hx, min_eq_left hxq]
      have hr0 : 0 ≤ roundHalfToEven x := roundHalfToEven_nonneg x hx
      have hrq : roundHalfToEven x ≤ q := roundHalfToEven_le_int x q hxq
      have hr0' : (0 : ℚ) ≤ (roundHalfToEven x : ℚ) := by exact_mod_cast hr0
      have hrq' : (roundHalfToEven x : ℚ) ≤ (q : ℚ) := by exact_mod_cast hrq
      rw [hc]
      unfold clamp
      rw [max_eq_left hr0', min_eq_left hrq']
    · have hc : clamp x 0 (q : ℚ) = (q : ℚ) := by
        unfold clamp
        rw [max_eq_left hx, min_eq_right hxq.le]
      have hrq : q ≤ roundHalfToEven x := int_le_roundHalfToEven x q hxq.le
      have hrq' : (q : ℚ) ≤ (roundHalfToEven x : ℚ) := by exact_mod_cast hrq
      rw [hc, roundHalfToEven_intCast]
      unfold clamp
      rw [max_eq_left (le_trans hq0 hrq'), min_eq_right hrq']

/-! ## Lemmas about the tensor reductions -/

theorem le_foldl_max (l : List ℚ) : ∀ a b : ℚ, a ≤ b → a ≤ l.foldl max b := by
  induction l with
  | nil => intro a b h; simpa using h
  | cons x xs ih =>
    intro a b h
    exact ih a (max b x) (le_trans h (le_max_left b x))

theorem mem_le_foldl_max (l : List ℚ) : ∀ a x : ℚ, x ∈ l → x ≤ l.foldl max a := by
  induction l with
  | nil => intro a x h; cases h
  | cons y ys ih =>
    intro a x h
    rcases List.mem_cons.mp h with h | h
    · subst h
      exact le_foldl_max ys x (max a x) (le_max_right a x)
    · exact ih (max a y) x h

theorem le_listMax (l : List ℚ) (x : ℚ) (h : x ∈ l) : x ≤ listMax l := by
  cases l with
  | nil => cases h
  | cons y ys =>
    rcases List.mem_cons.mp h with h | h
    · subst h
      exact le_foldl_max ys x x le_rfl
    · exact mem_le_foldl_max ys y x h

theorem abs_le_listAbsMax (l : List ℚ) (x : ℚ) (h : x ∈ l) : |x| ≤ listAbsMax l :=
  le_listMax (l.map (fun x => |x|)) |x| (List.mem_map.mpr ⟨x, h, rfl⟩)

theorem listAbsMax_pos (l : List ℚ) (x : ℚ) (hx : x ∈ l) (hne : x ≠ 0) :
    0 < listAbsMax l :=
  lt_of_lt_of_le (abs_pos.mpr hne) (abs_le_listAbsMax l x hx)

/-! ## Lemmas about the quantization parameter solver -/

theorem one_le_qmax (bits : ℕ) (hb : 1 ≤ bits) : (1 : ℚ) ≤ ((2 ^ bits - 1 : ℤ) : ℚ) := by
  have h2 : (2 : ℤ) ^ 1 ≤ 2 ^ bits := pow_le_pow_right₀ (by norm_num) hb
  have h3 : (2 : ℤ) ≤ 2 ^ bits := by simpa using h2
  have h4 : (1 : ℤ) ≤ 2 ^ bits - 1 := by linarith
  exact_mod_cast h4

/-- Characterisation of the solver on a proper range `rmin ≤ 0 ≤ rmax`,
`rmin < rmax`: the scale is the claimed quotient, and the zero point is the
integer rounding of `-rmin / scale`, which lies in `[0, 2^bits - 1]`. -/
theorem update_quantization_param_spec (bits : ℕ) (hb : 1 ≤ bits) (rmin rmax : ℚ)
    (h0 : rmin ≤ 0) (h1 : 0 ≤ rmax) (hlt : rmin < rmax) :
    ∃ zp : ℤ,
      update_quantization_param bits rmin rmax =
        ((rmax - rmin) / ((2 ^ bits - 1 : ℤ) : ℚ), some ((zp : ℤ) : ℚ)) ∧
      0 ≤ zp ∧ (zp : ℚ) ≤ ((2 ^ bits - 1 : ℤ) : ℚ) ∧
      |(zp : ℚ) - (0 - rmin / ((rmax - rmin) / ((2 ^ bits - 1 : ℤ) : ℚ)))| ≤ 1/2 := by
  have hQ1 : (1 : ℚ) ≤ ((2 ^ bits - 1 : ℤ) : ℚ) := one_le_qmax bits hb
  set Q : ℚ := ((2 ^ bits - 1 : ℤ) : ℚ) with hQdef
  have hQpos : 0 < Q := by linarith
  set S : ℚ := (rmax - rmin) / Q with hSdef
  have hS : 0 < S := div_pos (by linarith) hQpos
  have hQS : Q * S = rmax - rmin := by
    rw [hSdef]
    field_simp
  have hizp : (0 : ℚ) - rmin / S = (-rmin) / S := by ring
  have hizp0 : 0 ≤ (0 : ℚ) - rmin / S := by
    rw [hizp]
    exact div_nonneg (by linarith) hS.le
  have hizpQ : (0 : ℚ) - rmin / S ≤ Q := by
    rw [hizp, div_le_iff₀ hS]
    nlinarith
  refine ⟨roundHalfToEven ((0 : ℚ) - rmin / S), ?_, ?_, ?_, ?_⟩
  · simp only [update_quantization_param, min_eq_left h0, max_eq_left h1, sub_zero]
    rw [← hQdef, ← hSdef]
    rw [if_neg hS.ne']
    rw [if_neg (not_lt.mpr hizp0), if_neg (not_lt.mpr hizpQ)]
  · exact roundHalfToEven_nonneg _ hizp0
  · have h := roundHalfToEven_le_int ((0 : ℚ) - rmin / S) (2 ^ bits - 1) (by rw [← hQdef]; exact hizpQ)
    rw [hQdef]
    exact Int.cast_le.mpr h
  · exact abs_roundHalfToEven_sub _

/-! ## Claim C1 -/

/-- Claim C1, as stated, fails at the degenerate range: at `bits = 1`,
`rmin = rmax = 0` (which satisfies `rmin ≤ 0 ≤ rmax`) the scale is zero and
the zero-point computation divides by zero (NaN in the source), so no
integer-valued zero point inside `[0, 2^1 - 1]` is returned. -/
theorem c1_counterexample : (update_quantization_param 1 0 0).2 = none := by
  norm_num [update_quantization_param]

/-- Claim C1 (amended): for every bit-width `b ≥ 1` and every range
`rmin ≤ 0 ≤ rmax` with additionally `rmin < rmax`, the solver returns a
zero point that is integer-valued and lies in the closed interval
`[0, 2^b - 1]`. -/
theorem c1_zero_point_integral_in_range (bits : ℕ) (hb : 1 ≤ bits) (rmin rmax : ℚ)
    (h0 : rmin ≤ 0) (h1 : 0 ≤ rmax) (hlt : rmin < rmax) :
    ∃ zp : ℚ, (update_quantization_param bits rmin rmax).2 = some zp ∧
      (∃ n : ℤ, zp = (n : ℚ)) ∧ 0 ≤ zp ∧ zp ≤ ((2 ^ bits - 1 : ℤ) : ℚ) := by
  obtain ⟨n, heq, h0n, hQn, _⟩ := update_quantization_param_spec bits hb rmin rmax h0 h1 hlt
  exact ⟨(n : ℚ), by rw [heq], ⟨n, rfl⟩, by exact_mod_cast h0n, hQn⟩

/-- Claim C1 witness: the amended statement at `bits = 1`, `rmin = -1`,
`rmax = 1`. -/
theorem c1_witness :
    ∃ zp : ℚ, (update_quantization_param 1 (-1) 1).2 = some zp ∧
      (∃ n : ℤ, zp = (n : ℚ)) ∧ 0 ≤ zp ∧ zp ≤ ((2 ^ 1 - 1 : ℤ) : ℚ) :=
  c1_zero_point_integral_in_range 1 le_rfl (-1) 1 (by norm_num) (by norm_num) (by norm_num)

/-! ## Claim C7 -/

/-- Claim C7: for every `bits ≥ 1` the solver returns a strictly positive
scale (and a finite zero point) whenever the clamped range is non-degenerate,
i.e. unless `rmin ≥ 0 ∧ rmax ≤ 0`; exactly in the degenerate case it produces
a zero scale and the zero-point division by zero (the non-finite zero point),
with no defensive guard. -/
theorem c7_degenerate_scale (bits : ℕ) (hb : 1 ≤ bits) (rmin rmax : ℚ) :
    (¬(0 ≤ rmin ∧ rmax ≤ 0) →
      0 < (update_quantization_param bits rmin rmax).1 ∧
      ∃ zp : ℚ, (update_quantization_param bits rmin rmax).2 = some zp) ∧
    ((0 ≤ rmin ∧ rmax ≤ 0) → update_quantization_param bits rmin rmax = (0, none)) := by
  have hQ1 : (1 : ℚ) ≤ ((2 ^ bits - 1 : ℤ) : ℚ) := one_le_qmax bits hb
  constructor
  · intro h
    have hpos : 0 < max rmax 0 - min rmin 0 := by
      rcases lt_or_le rmin 0 with hr | hr
      · have h1 : min rmin 0 = rmin := min_eq_left hr.le
        have h2 : (0 : ℚ) ≤ max rmax 0 := le_max_right rmax 0
        rw [h1]; linarith
      · have h2 : ¬(rmax ≤ 0) := fun hmax => h ⟨hr, hmax⟩
        push_neg at h2
        rw [min_eq_right hr, max_eq_left h2.le]
        simpa using h2
    have hS : 0 < (max rmax 0 - min rmin 0) / ((2 ^ bits - 1 : ℤ) : ℚ) :=
      div_pos hpos (by linarith)
    constructor
    · simp only [update_quantization_param, sub_zero]
      rw [if_neg hS.ne']
      exact hS
    · simp only [update_quantization_param, sub_zero]
      rw [if_neg hS.ne']
      exact ⟨_, rfl⟩
  · rintro ⟨h1, h2⟩
    simp only [update_quantization_param, min_eq_right h1, max_eq_right h2, sub_zero,
      sub_self, zero_div]
    simp

/-- Claim C7 witness: the non-degenerate branch at `(1, -1, 0)` and the
degenerate branch at `(1, 0, 0)`. -/
theorem c7_witness :
    (0 < (update_quantization_param 1 (-1) 0).1 ∧
      ∃ zp : ℚ, (update_quantization_param 1 (-1) 0).2 = some zp) ∧
    update_quantization_param 1 0 0 = (0, none) :=
  ⟨(c7_degenerate_scale 1 le_rfl (-1) 0).1 (by norm_num),
   (c7_degenerate_scale 1 le_rfl 0 0).2 (by norm_num)⟩

/-! ## Claim C6 -/

/-- Claim C6: the source codec `_quantize` (which clamps before rounding) is
extensionally equal to the spec reference formula
`clamp(round(zero_point + real_val/scale), 0, 2^bits - 1)` (which rounds
before clamping), for every real input, positive scale, integer-valued zero
point and `bits ≥ 1`. -/
theorem c6_quantize_clamp_round_equiv (bits : ℕ) (hb : 1 ≤ bits) (op : QATOp)
    (hscale : 0 < op.scale) (hzp : ∃ n : ℤ, op.zero_point = (n : ℚ)) (v : ℚ) :
    QAT_Quantizer._quantize bits op v = QAT_Quantizer.quantize_spec_formula bits op v := by
  have hq : (0 : ℤ) ≤ 2 ^ bits - 1 := by
    have hp : (0 : ℤ) < 2 ^ bits := pow_pos (by norm_num) bits
    omega
  have h := roundHalfToEven_clamp_comm (2 ^ bits - 1) hq (op.zero_point + v / op.scale)
  simpa [QAT_Quantizer._quantize, QAT_Quantizer.quantize_spec_formula] using h

/-- Claim C6 witness: the two formulas agree at `bits = 1`, `scale = 1`,
`zero_point = 0`, `real_val = 3/4`. -/
theorem c6_witness :
    QAT_Quantizer._quantize 1 ⟨1, 0, 0, 0, 0, 0, 0⟩ (3/4) =
      QAT_Quantizer.quantize_spec_formula 1 ⟨1, 0, 0, 0, 0, 0, 0⟩ (3/4) :=
  c6_quantize_clamp_round_equiv 1 le_rfl ⟨1, 0, 0, 0, 0, 0, 0⟩ (by norm_num)
    ⟨0, by norm_num⟩ (3/4)

/-! ## Claim C5 -/

/-- Claim C5: zero exactness.  For every `bits ≥ 1` and every
`(scale, zero_point)` produced by the solver from a range `rmin ≤ 0 ≤ rmax`
with `rmin < rmax`, quantizing the real value `0` and dequantizing the result
yields exactly `0`. -/
theorem c5_zero_exactness (bits : ℕ) (hb : 1 ≤ bits) (rmin rmax : ℚ)
    (h0 : rmin ≤ 0) (h1 : 0 ≤ rmax) (hlt : rmin < rmax) (op : QATOp)
    (hop : update_quantization_param bits rmin rmax = (op.scale, some op.zero_point)) :
    QAT_Quantizer._dequantize op (QAT_Quantizer._quantize bits op 0) = 0 := by
  obtain ⟨n, heq, h0n, hQn, _⟩ := update_quantization_param_spec bits hb rmin rmax h0 h1 hlt
  rw [hop, Prod.mk.injEq] at heq
  obtain ⟨hs, hzs⟩ := heq
  have hz : op.zero_point = (n : ℚ) := Option.some.inj hzs
  simp only [QAT_Quantizer._quantize, QAT_Quantizer._dequantize]
  rw [zero_div, add_zero, hz]
  have hc : clamp ((n : ℚ)) 0 ((2 ^ bits - 1 : ℤ) : ℚ) = (n : ℚ) := by
    unfold clamp
    rw [max_eq_left (by exact_mod_cast h0n), min_eq_left hQn]
  rw [hc, roundHalfToEven_intCast]
  ring

/-- Claim C5 witness: `bits = 1`, `rmin = -1`, `rmax = 1` give
`scale = 2`, `zero_point = 0`, and the round trip of `0` is exactly `0`. -/
theorem c5_witness :
    QAT_Quantizer._dequantize ⟨2, 0, 0, 0, 0, 0, 0⟩
      (QAT_Quantizer._quantize 1 ⟨2, 0, 0, 0, 0, 0, 0⟩ 0) = 0 :=
  c5_zero_exactness 1 le_rfl (-1) 1 (by norm_num) (by norm_num) (by norm_num)
    ⟨2, 0, 0, 0, 0, 0, 0⟩ (by norm_num [update_quantization_param, roundHalfToEven])

/-! ## Claim C4 -/

/-- Claim C4: round-trip accuracy.  For every `bits ≥ 1`, every
`(scale, zero_point)` produced by the solver from a range `rmin ≤ 0 ≤ rmax`
with `rmin < rmax`, and every `v ∈ [rmin, rmax]`, dequantizing the quantized
value differs from `v` by at most one quantization step `scale`. -/
theorem c4_round_trip_error_le_scale (bits : ℕ) (hb : 1 ≤ bits) (rmin rmax : ℚ)
    (h0 : rmin ≤ 0) (h1 : 0 ≤ rmax) (hlt : rmin < rmax) (op : QATOp)
    (hop : update_quantization_param bits rmin rmax = (op.scale, some op.zero_point))
    (v : ℚ) (hv1 : rmin ≤ v) (hv2 : v ≤ rmax) :
    |QAT_Quantizer._dequantize op (QAT_Quantizer._quantize bits op v) - v| ≤ op.scale := by
  obtain ⟨n, heq, h0n, hQn, habs⟩ := update_quantization_param_spec bits hb rmin rmax h0 h1 hlt
  rw [hop, Prod.mk.injEq] at heq
  obtain ⟨hs, hzs⟩ := heq
  have hz : op.zero_point = (n : ℚ) := Option.some.inj hzs
  have hQ1 : (1 : ℚ) ≤ ((2 ^ bits - 1 : ℤ) : ℚ) := one_le_qmax bits hb
  set Q : ℚ := ((2 ^ bits - 1 : ℤ) : ℚ) with hQdef
  have hQpos : (0 : ℚ) < Q := by linarith
  have hS : 0 < op.scale := by
    rw [hs]
    exact div_pos (by linarith) hQpos
  rw [← hs] at habs
  have hne : rmax - rmin ≠ 0 := by
    intro hcon
    linarith
  have hrange : rmax / op.scale - rmin / op.scale = Q := by
    rw [div_sub_div_same, hs, div_div_eq_mul_div, mul_comm, mul_div_assoc,
      div_self hne, mul_one]
  obtain ⟨hal, har⟩ := abs_le.mp habs
  have hdiv1 : rmin / op.scale ≤ v / op.scale := (div_le_div_iff_of_pos_right hS).mpr hv1
  have hdiv2 : v / op.scale ≤ rmax / op.scale := (div_le_div_iff_of_pos_right hS).mpr hv2
  simp only [QAT_Quantizer._quantize, QAT_Quantizer._dequantize]
  rw [← hQdef, hz]
  set x : ℚ := (n : ℚ) + v / op.scale with hxdef
  clear_value x
  have hxlow : -(1/2) ≤ x := by
    rw [hxdef]
    linarith
  have hxhigh : x ≤ Q + 1/2 := by
    rw [hxdef]
    linarith
  set r : ℚ := ((roundHalfToEven (clamp x 0 Q) : ℤ) : ℚ) with hrdef
  clear_value r
  have hr_err : |r - x| ≤ 1/2 := by
    rcases lt_or_le x 0 with hx | hx
    · have hc : clamp x 0 Q = 0 := by
        unfold clamp
        rw [max_eq_right hx.le, min_eq_left hQpos.le]
      have hr0 : r = 0 := by
        rw [hrdef, hc]
        have h00 : roundHalfToEven ((0 : ℤ) : ℚ) = 0 := roundHalfToEven_intCast 0
        simpa using congrArg (fun m => ((m : ℤ) : ℚ)) h00
      rw [hr0]
      rw [abs_le]
      constructor <;> linarith
    · rcases le_or_lt x Q with hxq | hxq
      · have hc : clamp x 0 Q = x := by
          unfold clamp
          rw [max_eq_left hx, min_eq_left hxq]
        rw [hrdef, hc]
        exact abs_roundHalfToEven_sub x
      · have hc : clamp x 0 Q = Q := by
          unfold clamp
          rw [max_eq_left hx, min_eq_right hxq.le]
        have hrQ : r = Q := by
          rw [hrdef, hc, hQdef, roundHalfToEven_intCast]
        rw [hrQ]
        rw [abs_le]
        constructor <;> linarith
  have hxv : op.scale * (x - (n : ℚ)) = v := by
    rw [hxdef]
    field_simp
    ring
  have hdiffs : op.scale * (r - (n : ℚ)) - v = op.scale * (r - x) := by
    rw [← hxv]
    ring
  rw [hdiffs, abs_mul, abs_of_pos hS]
  have hmul : op.scale * |r - x| ≤ op.scale * (1/2) :=
    mul_le_mul_of_nonneg_left hr_err hS.le
  linarith

/-- Claim C4 witness: `bits = 2`, `rmin = -1`, `rmax = 2` give `scale = 1`,
`zero_point = 1`; the round trip of `v = 1/2` errs by at most `scale`. -/
theorem c4_witness :
    |QAT_Quantizer._dequantize ⟨1, 1, 0, 0, 0, 0, 0⟩
      (QAT_Quantizer._quantize 2 ⟨1, 1, 0, 0, 0, 0, 0⟩ (1/2)) - 1/2| ≤ (1 : ℚ) :=
  c4_round_trip_error_le_scale 2 (by norm_num) (-1) 2 (by norm_num) (by norm_num)
    (by norm_num) ⟨1, 1, 0, 0, 0, 0, 0⟩
    (by norm_num [update_quantization_param, roundHalfToEven]) (1/2)
    (by norm_num) (by norm_num)

/-! ## Claim C2 -/

/-- Claim C2: QAT state gating with `quant_start_step = 5`.  At step counter
`3`, `quantize_weight` returns its input unchanged (and the same state); at
any step counter `≥ 5` it instead applies the quantize-then-dequantize
transformation with fresh `rmin = min(weight)`, `rmax = max(weight)` solved
into `(scale, zero_point)` (stated for ranges whose zero point is finite). -/
theorem c2_quant_start_step_gating (config : QuantConfig) (b : ℤ)
    (hcb : get_bits_length config QuantType.weight = some b) (hb1 : 1 ≤ b)
    (hss : config.quant_start_step = 5) (op : QATOp) (w : List ℚ) :
    QAT_Quantizer.quantize_weight config 3 op w = Except.ok (op, w) ∧
    (∀ steps : ℕ, 5 ≤ steps → ∀ s zp : ℚ,
      update_quantization_param b.toNat (listMin w) (listMax w) = (s, some zp) →
      QAT_Quantizer.quantize_weight config steps op w =
        Except.ok ({ op with scale := s, zero_point := zp },
          w.map (fun x =>
            QAT_Quantizer._dequantize { op with scale := s, zero_point := zp }
              (QAT_Quantizer._quantize b.toNat { op with scale := s, zero_point := zp } x)))) := by
  constructor
  · simp only [QAT_Quantizer.quantize_weight, hcb, hss]
    rw [if_neg (by omega), if_pos (by omega)]
  · intro steps hsteps s zp hupd
    simp only [QAT_Quantizer.quantize_weight, hcb, hss]
    rw [if_neg (by omega), if_neg (by omega), hupd]

/-- Claim C2 witness: with `quant_bits = 2`, `quant_start_step = 5` and weight
`[1, 3]`, step `3` passes the tensor through unchanged and step `5` applies
the transformation (here the weights already sit on the grid). -/
theorem c2_witness :
    QAT_Quantizer.quantize_weight ⟨some (QuantBits.int 2), 5⟩ 3 ⟨0, 0, 0, 0, 0, 0, 0⟩ [1, 3] =
      Except.ok (⟨0, 0, 0, 0, 0, 0, 0⟩, [1, 3]) ∧
    QAT_Quantizer.quantize_weight ⟨some (QuantBits.int 2), 5⟩ 5 ⟨0, 0, 0, 0, 0, 0, 0⟩ [1, 3] =
      Except.ok (⟨1, 0, 0, 0, 0, 0, 0⟩, [1, 3]) := by
  have h := c2_quant_start_step_gating ⟨some (QuantBits.int 2), 5⟩ 2 rfl (by norm_num)
    rfl ⟨0, 0, 0, 0, 0, 0, 0⟩ [1, 3]
  refine ⟨h.1, ?_⟩
  have h2 := h.2 5 le_rfl 1 0 (by norm_num [update_quantization_param, listMin, listMax,
    roundHalfToEven, show ((2 : ℤ)).toNat = 2 from rfl])
  rw [h2]
  norm_num [QAT_Quantizer._quantize, QAT_Quantizer._dequantize, clamp, roundHalfToEven,
    show ((2 : ℤ)).toNat = 2 from rfl]

/-! ## Claim C10 -/

/-- Claim C10: frame property of the inactive phase.  While
`quant_start_step > steps` and the configured bits are `≥ 1`, both
`quantize_weight` and `quantize_output` return their input tensor and the very
same per-layer state: `scale`, `zero_point` and all four EMA trackers are
untouched. -/
theorem c10_inactive_frame (config : QuantConfig) (steps : ℕ) (op : QATOp)
    (w out : List ℚ) (hss : steps < config.quant_start_step) :
    (∀ b : ℤ, get_bits_length config QuantType.weight = some b → 1 ≤ b →
      QAT_Quantizer.quantize_weight config steps op w = Except.ok (op, w)) ∧
    (∀ b : ℤ, get_bits_length config QuantType.output = some b → 1 ≤ b →
      QAT_Quantizer.quantize_output config steps op out = Except.ok (op, out)) := by
  constructor
  · intro b hcb hb1
    simp only [QAT_Quantizer.quantize_weight, hcb]
    rw [if_neg (by omega), if_pos hss]
  · intro b hcb hb1
    simp only [QAT_Quantizer.quantize_output, hcb]
    rw [if_neg (by omega), if_pos hss]

/-- Claim C10 witness: a per-type bits dict `{weight: 8, output: 8}` with
`quant_start_step = 5` at step `3` passes both tensors through with the state
(including nonzero EMA buffers) unchanged. -/
theorem c10_witness :
    QAT_Quantizer.quantize_weight
        ⟨some (QuantBits.dict (fun _ => some 8)), 5⟩ 3 ⟨2, 3, 99/100, 4, 5, 6, 7⟩ [1, 2] =
      Except.ok (⟨2, 3, 99/100, 4, 5, 6, 7⟩, [1, 2]) ∧
    QAT_Quantizer.quantize_output
        ⟨some (QuantBits.dict (fun _ => some 8)), 5⟩ 3 ⟨2, 3, 99/100, 4, 5, 6, 7⟩ [9, 10] =
      Except.ok (⟨2, 3, 99/100, 4, 5, 6, 7⟩, [9, 10]) :=
  ⟨(c10_inactive_frame ⟨some (QuantBits.dict (fun _ => some 8)), 5⟩ 3
      ⟨2, 3, 99/100, 4, 5, 6, 7⟩ [1, 2] [9, 10] (by norm_num)).1 8 rfl (by norm_num),
   (c10_inactive_frame ⟨some (QuantBits.dict (fun _ => some 8)), 5⟩ 3
      ⟨2, 3, 99/100, 4, 5, 6, 7⟩ [1, 2] [9, 10] (by norm_num)).2 8 rfl (by norm_num)⟩

/-! ## Claim C8 -/

/-- Claim C8: every configuration error — a missing bits configuration (the
`quant_bits` key absent, or a per-type dict without the needed entry) or a
configured bit-width `< 1` — makes `quantize_weight` / `quantize_output` fail
immediately and fatally at call time, regardless of step counter, state or
tensor: no recovery, no retry, no silent default. -/
theorem c8_config_errors (config : QuantConfig) (steps : ℕ) (op : QATOp)
    (w out : List ℚ) :
    (get_bits_length config QuantType.weight = none →
      QAT_Quantizer.quantize_weight config steps op w =
        Except.error QuantFailure.missing_quant_bits) ∧
    (∀ b : ℤ, get_bits_length config QuantType.weight = some b → b < 1 →
      QAT_Quantizer.quantize_weight config steps op w =
        Except.error QuantFailure.bits_length_below_one) ∧
    (get_bits_length config QuantType.output = none →
      QAT_Quantizer.quantize_output config steps op out =
        Except.error QuantFailure.missing_quant_bits) ∧
    (∀ b : ℤ, get_bits_length config QuantType.output = some b → b < 1 →
      QAT_Quantizer.quantize_output config steps op out =
        Except.error QuantFailure.bits_length_below_one) := by
  refine ⟨?_, ?_, ?_, ?_⟩
  · intro h
    simp only [QAT_Quantizer.quantize_weight, h]
  · intro b hb hlt
    simp only [QAT_Quantizer.quantize_weight, hb]
    rw [if_pos hlt]
  · intro h
    simp only [QAT_Quantizer.quantize_output, h]
  · intro b hb hlt
    simp only [QAT_Quantizer.quantize_output, hb]
    rw [if_pos hlt]

/-- Claim C8 witness: a config without `quant_bits`, a dict without the
needed key, and a zero bit-width all fail fatally at call time. -/
theorem c8_witness :
    QAT_Quantizer.quantize_weight ⟨none, 0⟩ 1 ⟨0, 0, 0, 0, 0, 0, 0⟩ [1] =
      Except.error QuantFailure.missing_quant_bits ∧
    QAT_Quantizer.quantize_weight ⟨some (QuantBits.int 0), 0⟩ 1 ⟨0, 0, 0, 0, 0, 0, 0⟩ [1] =
      Except.error QuantFailure.bits_length_below_one ∧
    QAT_Quantizer.quantize_output ⟨some (QuantBits.dict (fun _ => none)), 0⟩ 1
        ⟨0, 0, 0, 0, 0, 0, 0⟩ [1] =
      Except.error QuantFailure.missing_quant_bits ∧
    QAT_Quantizer.quantize_output ⟨some (QuantBits.int 0), 0⟩ 1 ⟨0, 0, 0, 0, 0, 0, 0⟩ [1] =
      Except.error QuantFailure.bits_length_below_one :=
  ⟨(c8_config_errors ⟨none, 0⟩ 1 ⟨0, 0, 0, 0, 0, 0, 0⟩ [1] [1]).1 rfl,
   (c8_config_errors ⟨some (QuantBits.int 0), 0⟩ 1 ⟨0, 0, 0, 0, 0, 0, 0⟩ [1] [1]).2.1 0
     rfl (by norm_num),
   (c8_config_errors ⟨some (QuantBits.dict (fun _ => none)), 0⟩ 1
     ⟨0, 0, 0, 0, 0, 0, 0⟩ [1] [1]).2.2.1 rfl,
   (c8_config_errors ⟨some (QuantBits.int 0), 0⟩ 1 ⟨0, 0, 0, 0, 0, 0, 0⟩ [1] [1]).2.2.2 0
     rfl (by norm_num)⟩

/-! ## Claim C3 -/

theorem int8cast_bounds (n : ℤ) : -128 ≤ int8cast n ∧ int8cast n ≤ 127 := by
  unfold int8cast
  have h1 : 0 ≤ (n + 128) % 256 := Int.emod_nonneg _ (by norm_num)
  have h2 : (n + 128) % 256 < 256 := Int.emod_lt_of_pos _ (by norm_num)
  omega

/-- Claim C3 counterexample: the Naive quantizer truncates toward zero, it
does not round to nearest.  At weight `[3, 254]` with a fresh layer scale the
persisted scale is `2`; the element `3` maps to `3/2 = 1.5`, the int8 cast
truncates it to `1`, and the output element is `2` — the spec's
round-to-nearest formula would give `2` (as `round(1.5) = 2`) and output `4`. -/
theorem c3_counterexample :
    NaiveQuantizer.quantize_weight 0 [3, 254] = (2, [2, 254]) ∧
    NaiveQuantizer.quantize_weight_spec_round 0 [3, 254] = (2, [4, 254]) := by
  constructor
  · norm_num [NaiveQuantizer.quantize_weight, listAbsMax, listMax, truncTowardZero, int8cast]
  · norm_num [NaiveQuantizer.quantize_weight_spec_round, listAbsMax, listMax,
      roundHalfToEven, int8cast]

/-- Claim C3 (amended): for every weight tensor the Naive quantizer returns
`trunc-toward-zero(weight / scale)` mapped to the 8-bit signed integer domain,
cast back and multiplied by `scale` (truncation toward zero via the int8 cast,
not rounding to nearest), where `scale = max(layer_scale, max|weight| / 127)`;
every output element is `scale` times an integer in `[-128, 127]`. -/
theorem c3_naive_truncates (ls : ℚ) (w : List ℚ) :
    (NaiveQuantizer.quantize_weight ls w).1 = max ls (listAbsMax w / 127) ∧
    (NaiveQuantizer.quantize_weight ls w).2 =
      w.map (fun x =>
        ((int8cast (truncTowardZero (x / max ls (listAbsMax w / 127))) : ℤ) : ℚ) *
          max ls (listAbsMax w / 127)) ∧
    ∀ y ∈ (NaiveQuantizer.quantize_weight ls w).2, ∃ k : ℤ,
      -128 ≤ k ∧ k ≤ 127 ∧ y = (k : ℚ) * max ls (listAbsMax w / 127) := by
  refine ⟨rfl, ?_, ?_⟩
  · simp only [NaiveQuantizer.quantize_weight, List.map_map]
    rfl
  · intro y hy
    simp only [NaiveQuantizer.quantize_weight, List.map_map, List.mem_map,
      Function.comp] at hy
    obtain ⟨x, hxw, hxy⟩ := hy
    refine ⟨int8cast (truncTowardZero (x / max ls (listAbsMax w / 127))),
      (int8cast_bounds _).1, (int8cast_bounds _).2, ?_⟩
    exact hxy.symm

/-- Claim C3 witness: the multiple-of-scale part of the amended claim at the
concrete output element `2` of weight `[3, 254]`. -/
theorem c3_witness :
    ∃ k : ℤ, -128 ≤ k ∧ k ≤ 127 ∧ (2 : ℚ) = (k : ℚ) * max 0 (listAbsMax [3, 254] / 127) :=
  (c3_naive_truncates 0 [3, 254]).2.2 2
    (by norm_num [NaiveQuantizer.quantize_weight, listAbsMax, listMax, truncTowardZero,
      int8cast])

/-! ## Claim C9 -/

/-- Claim C9: the DoReFa quantizer with `q_bits = 1` collapses every weight to
exactly `-1` or `1`.  `tanh` enters only through the property that it vanishes
exactly at zero, so the statement quantifies over any such function `th`; the
weight tensor must not be identically zero. -/
theorem c9_dorefa_binary (th : ℚ → ℚ) (hth : ∀ x, th x = 0 ↔ x = 0)
    (w : List ℚ) (hw : ∃ x ∈ w, x ≠ 0) :
    ∀ y ∈ DoReFaQuantizer.quantize_weight th 1 w, y = -1 ∨ y = 1 := by
  obtain ⟨x0, hx0w, hx0⟩ := hw
  have hth0 : th x0 ≠ 0 := fun h => hx0 ((hth x0).mp h)
  have hM : 0 < listAbsMax (w.map th) :=
    listAbsMax_pos _ _ (List.mem_map.mpr ⟨x0, hx0w, rfl⟩) hth0
  intro y hy
  simp only [DoReFaQuantizer.quantize_weight, DoReFaQuantizer.quantize, List.map_map,
    List.mem_map, Function.comp] at hy
  obtain ⟨x, hxw, hxy⟩ := hy
  set M : ℚ := listAbsMax (w.map th) with hMdef
  obtain ⟨hl, hr⟩ := abs_le.mp (abs_le_listAbsMax (w.map th) (th x)
    (List.mem_map.mpr ⟨x, hxw, rfl⟩))
  have h2M : 0 < 2 * M := by linarith
  have ht0 : 0 ≤ th x / (2 * M) + 1/2 := by
    have hd : -(1/2) ≤ th x / (2 * M) := by
      rw [le_div_iff₀ h2M]
      linarith
    linarith
  have ht1 : th x / (2 * M) + 1/2 ≤ 1 := by
    have hd : th x / (2 * M) ≤ 1/2 := by
      rw [div_le_iff₀ h2M]
      linarith
    linarith
  have harg : (th x / (2 * M) + 1/2) * ((2:ℚ) ^ 1 - 1) = th x / (2 * M) + 1/2 := by
    norm_num
  have h0r : 0 ≤ roundHalfToEven (th x / (2 * M) + 1/2) :=
    roundHalfToEven_nonneg _ ht0
  have h1r : roundHalfToEven (th x / (2 * M) + 1/2) ≤ 1 :=
    roundHalfToEven_le_int _ 1 (by exact_mod_cast ht1)
  have hcases : roundHalfToEven (th x / (2 * M) + 1/2) = 0 ∨
      roundHalfToEven (th x / (2 * M) + 1/2) = 1 := by omega
  rw [← hxy, harg]
  rcases hcases with hc | hc
  · left
    rw [hc]
    norm_num
  · right
    rw [hc]
    norm_num

/-- Claim C9 witness: with `th = id` (which vanishes exactly at zero) and
weight `[1, -2]`, the DoReFa output is `[1, -1]` and the theorem applies to
its first element. -/
theorem c9_witness :
    ((1 : ℚ) = -1 ∨ (1 : ℚ) = 1) ∧
    DoReFaQuantizer.quantize_weight id 1 [1, -2] = [1, -1] :=
  ⟨c9_dorefa_binary id (fun x => by simp) [1, -2] ⟨1, by norm_num, by norm_num⟩ 1
      (by norm_num [DoReFaQuantizer.quantize_weight, DoReFaQuantizer.quantize, listAbsMax,
        listMax, roundHalfToEven]),
   by norm_num [DoReFaQuantizer.quantize_weight, DoReFaQuantizer.quantize, listAbsMax,
     listMax, roundHalfToEven]⟩
